import Mathlib

/-!
# A verification development for `adt.stack` (package `adt`, file `stack.go`)

The Go type

```go
type stack struct {
	size int
	items []interface{}
	mx sync.Mutex
}
```

is embedded as a record of the two data fields.  `Push`, `Pop`, `Top` and
`Destroy` take the lock on entry and release it with `defer`, `Size` does not
touch it; in a sequential execution the lock has no effect on the data, so a
method is embedded as a function from the state before the call to the result
and the state after it.  What each method does with the mutex is embedded apart,
as the trace `mxTrace`.

Modelling decisions.

* `interface{}` values are `Option α`: `none` is Go's `nil` interface value and
  `some a` is any other dynamic value.
* `size` is a Go `int`.  It is embedded as an unbounded `Int`: the only
  increment is the one in `Push`, which also appends one element to `items`,
  and a Go slice of two-word interface values cannot hold anywhere near `2^63`
  elements, so the increment cannot wrap.
* `items` is a list.  The slice is never handed out, so sharing of the backing
  array between `items[:n]` and a later `append` is not observable.
* Indexing and slicing are checked: an access out of range is a run-time panic,
  embedded as `Except.error`.
-/

namespace Adt

/-- Run-time panics that the slice accesses of `stack.go` can raise. -/
inductive Panic where
  | indexOutOfRange
  | sliceBoundsOutOfRange
  deriving DecidableEq, Repr

/-- An `interface{}` value: `none` is `nil`. -/
abbrev Value (α : Type) := Option α

/-- The data fields of `type stack struct`. -/
structure stack (α : Type) where
  size : Int
  items : List (Value α)
  deriving DecidableEq, Repr

/-- Go's `xs[i]` for an `int` index: panics unless `0 <= i < len(xs)`. -/
def goIndex {β : Type} (xs : List β) (i : Int) : Except Panic β :=
  if i < 0 then .error .indexOutOfRange
  else
    match xs[i.toNat]? with
    | some x => .ok x
    | none => .error .indexOutOfRange

/-- Go's `xs[:n]` for an `int` bound.  Go checks `0 <= n <= cap(xs)`; the model
checks against the length.  The only use, in `Pop`, comes right after `xs[n]`
has succeeded, so `n < len(xs) <= cap(xs)` there and both checks pass. -/
def goSliceTo {β : Type} (xs : List β) (n : Int) : Except Panic (List β) :=
  if 0 ≤ n ∧ n ≤ (xs.length : Int) then .ok (xs.take n.toNat)
  else .error .sliceBoundsOutOfRange

/-- Embedding of `func NewStack() *stack`. -/
def NewStack {α : Type} : stack α :=
  { size := 0, items := [] }

/-- Embedding of `func (st *stack) Size() int`. -/
def stack.Size {α : Type} (st : stack α) : Int :=
  st.size

/-- Embedding of `func (st *stack) Push(elm interface{})`:
`st.size++` and then `st.items = append(st.items, elm)`. -/
def stack.Push {α : Type} (st : stack α) (elm : Value α) : stack α :=
  let st1 : stack α := { st with size := st.size + 1 }
  { st1 with items := st1.items ++ [elm] }

/-- Embedding of `func (st *stack) Pop() interface{}`: the result and the state
after the call, or the panic of an out-of-range access. -/
def stack.Pop {α : Type} (st : stack α) : Except Panic (Value α × stack α) :=
  if st.size = 0 then
    .ok (none, st)
  else
    let st1 : stack α := { st with size := st.size - 1 }
    match goIndex st1.items st1.size with
    | .error e => .error e
    | .ok elm =>
      match goSliceTo st1.items st1.size with
      | .error e => .error e
      | .ok rest => .ok (elm, { st1 with items := rest })

/-- Embedding of `func (st *stack) Top() interface{}`: the result and the state
after the call (the body assigns nothing), or the panic of an out-of-range
access. -/
def stack.Top {α : Type} (st : stack α) : Except Panic (Value α × stack α) :=
  if st.size = 0 then
    .ok (none, st)
  else
    match goIndex st.items (st.size - 1) with
    | .error e => .error e
    | .ok elm => .ok (elm, st)

/-- Embedding of `func (st *stack) Destroy()`: `items` is set to `nil`, then to
a fresh empty slice, then `size` to `0`. -/
def stack.Destroy {α : Type} (st : stack α) : stack α :=
  let st1 : stack α := { st with items := [] }
  let st2 : stack α := { st1 with items := [] }
  { st2 with size := 0 }

/-- A call of one of the five methods. -/
inductive Call (α : Type) where
  | push (elm : Value α)
  | pop
  | top
  | size
  | destroy
  deriving DecidableEq, Repr

/-- What a call hands back: nothing (`Push`, `Destroy`), an `interface{}` value
(`Pop`, `Top`) or an `int` (`Size`). -/
inductive Ret (α : Type) where
  | unit
  | val (v : Value α)
  | int (n : Int)
  deriving DecidableEq, Repr

/-- One method call on a state. -/
def step {α : Type} (st : stack α) : Call α → Except Panic (Ret α × stack α)
  | .push elm => .ok (.unit, st.Push elm)
  | .pop =>
    match st.Pop with
    | .error e => .error e
    | .ok (v, st1) => .ok (.val v, st1)
  | .top =>
    match st.Top with
    | .error e => .error e
    | .ok (v, st1) => .ok (.val v, st1)
  | .size => .ok (.int st.Size, st)
  | .destroy => .ok (.unit, st.Destroy)

/-- A single-threaded sequence of calls: the results in order and the final
state, or the first panic. -/
def run {α : Type} (st : stack α) : List (Call α) → Except Panic (List (Ret α) × stack α)
  | [] => .ok ([], st)
  | c :: cs =>
    match step st c with
    | .error e => .error e
    | .ok (r, st1) =>
      match run st1 cs with
      | .error e => .error e
      | .ok (rs, st2) => .ok (r :: rs, st2)

/-- The states a client can bring a stack into: `NewStack()` followed by calls
that returned. -/
inductive Reachable {α : Type} : stack α → Prop where
  | new : Reachable NewStack
  | call {st st1 : stack α} (c : Call α) (r : Ret α) :
      Reachable st → step st c = .ok (r, st1) → Reachable st1

/-- `Push(v1); ...; Push(vn)` in this order. -/
def pushAll {α : Type} (st : stack α) : List (Value α) → stack α
  | [] => st
  | v :: vs => pushAll (st.Push v) vs

/-- `k` calls of `Pop()` in a row, each followed by `Size()`: the pairs
(popped value, size read after that pop) in order, and the final state. -/
def popN {α : Type} : Nat → stack α → Except Panic (List (Value α × Int) × stack α)
  | 0, st => .ok ([], st)
  | k + 1, st =>
    match st.Pop with
    | .error e => .error e
    | .ok (v, st1) =>
      match popN k st1 with
      | .error e => .error e
      | .ok (rs, st2) => .ok ((v, st1.Size) :: rs, st2)

/-- `n` calls of `Top()` in a row: the values returned in order and the final
state. -/
def topN {α : Type} : Nat → stack α → Except Panic (List (Value α) × stack α)
  | 0, st => .ok ([], st)
  | n + 1, st =>
    match st.Top with
    | .error e => .error e
    | .ok (v, st1) =>
      match topN n st1 with
      | .error e => .error e
      | .ok (vs, st2) => .ok (v :: vs, st2)

/-- The call is a `Push`. -/
def Call.isPush {α : Type} : Call α → Bool
  | .push _ => true
  | _ => false

/-- The call is a `Pop`. -/
def Call.isPop {α : Type} : Call α → Bool
  | .pop => true
  | _ => false

/-- Number of `Push` calls in a sequence. -/
def countPush {α : Type} (cs : List (Call α)) : Nat :=
  cs.countP Call.isPush

/-- Number of `Pop` calls in a sequence. -/
def countPop {α : Type} (cs : List (Call α)) : Nat :=
  cs.countP Call.isPop

/-- The value a call pushes, if it is a `Push`. -/
def Call.pushedValue {α : Type} : Call α → Option (Value α)
  | .push elm => some elm
  | _ => none

/-- The values `v1..vP` pushed by a sequence of calls, in the order of the
calls. -/
def pushed {α : Type} (cs : List (Call α)) : List (Value α) :=
  cs.filterMap Call.pushedValue

/-- Reference model on a plain list, one call: `Push` appends at the end, `Pop`
removes and returns the last element or `nil` if the list is empty, `Top` is
the last element or `nil`, `Size` is the length, `Destroy` is the empty list. -/
def listModelStep {α : Type} (l : List (Value α)) : Call α → Ret α × List (Value α)
  | .push elm => (.unit, l ++ [elm])
  | .pop => (.val (l.getLast?.getD none), l.dropLast)
  | .top => (.val (l.getLast?.getD none), l)
  | .size => (.int l.length, l)
  | .destroy => (.unit, [])

/-- Reference model on a plain list, a sequence of calls: the results in order
and the final list. -/
def listModelRun {α : Type} (l : List (Value α)) : List (Call α) → List (Ret α) × List (Value α)
  | [] => ([], l)
  | c :: cs =>
    ((listModelStep l c).1 :: (listModelRun (listModelStep l c).2 cs).1,
     (listModelRun (listModelStep l c).2 cs).2)

/-- Number of `Pop` calls of a run that are made while `Size() == 0`. -/
def popsOnEmpty {α : Type} (st : stack α) : List (Call α) → Nat
  | [] => 0
  | c :: cs =>
    (if c.isPop = true ∧ st.Size = 0 then 1 else 0)
      + match step st c with
        | .error _ => 0
        | .ok (_, st1) => popsOnEmpty st1 cs

/-- Number of `Pop` calls of a run that are made while `Size() != 0`. -/
def popsOnNonEmpty {α : Type} (st : stack α) : List (Call α) → Nat
  | [] => 0
  | c :: cs =>
    (if c.isPop = true ∧ st.Size ≠ 0 then 1 else 0)
      + match step st c with
        | .error _ => 0
        | .ok (_, st1) => popsOnNonEmpty st1 cs

/-- What a method body does with `st.mx` and with the fields the mutex guards:
a call of `Lock()`, a call of `Unlock()`, or a read or write of `size` or
`items`. -/
inductive MxEvent where
  | lock
  | unlock
  | access
  deriving DecidableEq, Repr

/-- The mutex calls and field accesses of one method call, in program order,
statement by statement.  A deferred `Unlock()` runs when the method leaves, by
`return` or by a panic.  `Size` is `return st.size`: it has no `Lock()` and no
`Unlock()`. -/
def mxTrace {α : Type} (st : stack α) : Call α → List MxEvent
  | .size => [.access]
  | .push _ => [.lock, .access, .access, .unlock]
  | .pop =>
    if st.size = 0 then [.lock, .access, .unlock]
    else
      match goIndex st.items (st.size - 1) with
      | .error _ => [.lock, .access, .access, .access, .unlock]
      | .ok _ => [.lock, .access, .access, .access, .access, .unlock]
  | .top =>
    if st.size = 0 then [.lock, .access, .unlock]
    else [.lock, .access, .access, .unlock]
  | .destroy => [.lock, .access, .access, .access, .unlock]

/-- Lock discipline of a trace, starting with the mutex held or not: `Lock()`
only while it is free, `Unlock()` and every access only while it is held, and
the mutex free at the end. -/
def lockDisciplined : Bool → List MxEvent → Bool
  | held, [] => !held
  | held, .lock :: es => !held && lockDisciplined true es
  | held, .unlock :: es => held && lockDisciplined false es
  | held, .access :: es => held && lockDisciplined held es

/-- A sample sequence of calls: push 1, push 2, push 3, pop, push 4, pop. -/
def sampleCalls : List (Call Nat) :=
  [.push (some 1), .push (some 2), .push (some 3), .pop, .push (some 4), .pop]

/-! ## Auxiliary lemmas -/

theorem goIndex_snoc {β : Type} (es : List β) (e : β) :
    goIndex (es ++ [e]) (es.length : Int) = .ok e := by
  have h : ¬ ((es.length : Int) < 0) := by omega
  simp [goIndex, h]

theorem goSliceTo_snoc {β : Type} (es : List β) (e : β) :
    goSliceTo (es ++ [e]) (es.length : Int) = .ok es := by
  simp [goSliceTo]

theorem Pop_snoc {α : Type} (es : List (Value α)) (e : Value α) :
    (⟨(es.length : Int) + 1, es ++ [e]⟩ : stack α).Pop = .ok (e, ⟨es.length, es⟩) := by
  have h : ¬ ((es.length : Int) + 1 = 0) := by omega
  simp [stack.Pop, h, goIndex_snoc, goSliceTo_snoc]

theorem Top_snoc {α : Type} (es : List (Value α)) (e : Value α) :
    (⟨(es.length : Int) + 1, es ++ [e]⟩ : stack α).Top
      = .ok (e, ⟨(es.length : Int) + 1, es ++ [e]⟩) := by
  have h : ¬ ((es.length : Int) + 1 = 0) := by omega
  simp [stack.Top, h, goIndex_snoc]

theorem Pop_of_size_zero {α : Type} (st : stack α) (h : st.size = 0) :
    st.Pop = .ok (none, st) := by
  simp [stack.Pop, h]

theorem Top_of_size_zero {α : Type} (st : stack α) (h : st.size = 0) :
    st.Top = .ok (none, st) := by
  simp [stack.Top, h]

/-- A state whose count agrees with its slice is determined by the slice. -/
theorem eq_mk_of_size_eq {α : Type} (st : stack α) (h : st.size = st.items.length) :
    st = ⟨(st.items.length : Int), st.items⟩ := by
  cases st
  simp_all

theorem Push_mk {α : Type} (n : Int) (es : List (Value α)) (v : Value α) :
    (⟨n, es⟩ : stack α).Push v = ⟨n + 1, es ++ [v]⟩ := rfl

theorem Pop_Push_of_size_eq {α : Type} (st : stack α) (h : st.size = st.items.length)
    (v : Value α) : (st.Push v).Pop = .ok (v, st) := by
  cases st with
  | mk n es =>
    simp only at h
    subst h
    rw [Push_mk, Pop_snoc]

theorem Top_Push_of_size_eq {α : Type} (st : stack α) (h : st.size = st.items.length)
    (v : Value α) : (st.Push v).Top = .ok (v, st.Push v) := by
  cases st with
  | mk n es =>
    simp only at h
    subst h
    rw [Push_mk, Top_snoc]

/-- Every call that returns keeps `size == len(items)`. -/
theorem step_size_eq {α : Type} (st st1 : stack α) (c : Call α) (r : Ret α)
    (h : st.size = st.items.length) (hs : step st c = .ok (r, st1)) :
    st1.size = st1.items.length := by
  cases st with
  | mk n es =>
    simp only at h
    subst h
    cases c with
    | push elm =>
      simp only [step, Push_mk, Except.ok.injEq, Prod.mk.injEq] at hs
      rw [← hs.2]
      simp
    | pop =>
      rcases List.eq_nil_or_concat es with hnil | ⟨es1, e, hcat⟩
      · subst hnil
        simp [step, stack.Pop] at hs
        rw [← hs.2]
        simp
      · subst hcat
        have hp := Pop_snoc (α := α) es1 e
        simp only [List.concat_eq_append, List.length_append, List.length_singleton,
          Nat.cast_add, Nat.cast_one] at hs ⊢
        simp only [step, hp, Except.ok.injEq, Prod.mk.injEq] at hs
        rw [← hs.2]
    | top =>
      rcases List.eq_nil_or_concat es with hnil | ⟨es1, e, hcat⟩
      · subst hnil
        simp [step, stack.Top] at hs
        rw [← hs.2]
        simp
      · subst hcat
        have hp := Top_snoc (α := α) es1 e
        simp only [List.concat_eq_append, List.length_append, List.length_singleton,
          Nat.cast_add, Nat.cast_one] at hs ⊢
        simp only [step, hp, Except.ok.injEq, Prod.mk.injEq] at hs
        rw [← hs.2]
        simp
    | size =>
      simp only [step, Except.ok.injEq, Prod.mk.injEq] at hs
      rw [← hs.2]
    | destroy =>
      simp only [step, Except.ok.injEq, Prod.mk.injEq] at hs
      rw [← hs.2]
      simp [stack.Destroy]

theorem Reachable.size_eq {α : Type} {st : stack α} (h : Reachable st) :
    st.size = st.items.length := by
  induction h with
  | new => simp [NewStack]
  | call c r _ hs ih => exact step_size_eq _ _ c r ih hs

theorem pushAll_mk {α : Type} (vs : List (Value α)) (n : Int) (es : List (Value α)) :
    pushAll (⟨n, es⟩ : stack α) vs = ⟨n + vs.length, es ++ vs⟩ := by
  induction vs generalizing n es with
  | nil => simp [pushAll]
  | cons v vs ih =>
    rw [pushAll, Push_mk, ih]
    simp only [List.length_cons, Nat.cast_add, Nat.cast_one, List.append_assoc,
      List.singleton_append, stack.mk.injEq, and_true]
    omega

theorem pushAll_NewStack {α : Type} (vs : List (Value α)) :
    pushAll (NewStack : stack α) vs = ⟨(vs.length : Int), vs⟩ := by
  rw [NewStack, pushAll_mk]
  simp

theorem Reachable.pushAll {α : Type} {st : stack α} (h : Reachable st)
    (vs : List (Value α)) : Reachable (Adt.pushAll st vs) := by
  induction vs generalizing st with
  | nil => exact h
  | cons v vs ih => exact ih (Reachable.call (.push v) .unit h rfl)

/-- On a state with `size == len(items)` and `size > 0` the last element of
the slice is what `Pop` removes and what `Top` shows. -/
theorem Pop_Top_of_size_eq_pos {α : Type} (st : stack α) (h : st.size = st.items.length)
    (hpos : 0 < st.size) :
    ∃ es e, st.items = es ++ [e] ∧ (es.length : Int) = st.size - 1
      ∧ st.Pop = .ok (e, ⟨st.size - 1, es⟩) ∧ st.Top = .ok (e, st) := by
  cases st with
  | mk n es =>
    simp only at h hpos
    subst h
    rcases List.eq_nil_or_concat es with hnil | ⟨es1, e, hcat⟩
    · subst hnil
      simp at hpos
    · subst hcat
      refine ⟨es1, e, by simp, by simp, ?_, ?_⟩
      · have hp := Pop_snoc (α := α) es1 e
        simpa using hp
      · have ht := Top_snoc (α := α) es1 e
        simpa using ht

theorem popN_all {α : Type} (vs : List (Value α)) :
    popN vs.length (⟨(vs.length : Int), vs⟩ : stack α)
      = .ok (vs.reverse.zip ((List.range vs.length).reverse.map Int.ofNat), ⟨0, []⟩) := by
  induction vs using List.reverseRecOn with
  | nil => rfl
  | append_singleton es e ih =>
    have hlen : (es ++ [e]).length = es.length + 1 := by simp
    rw [hlen, popN]
    have hp := Pop_snoc (α := α) es e
    simp only [Nat.cast_add, Nat.cast_one, hp, ih, stack.Size]
    simp [List.range_succ]

theorem topN_of_Top {α : Type} (st : stack α) (v : Value α) (h : st.Top = .ok (v, st))
    (n : Nat) : topN n st = .ok (List.replicate n v, st) := by
  induction n with
  | zero => rfl
  | succ n ih => simp [topN, h, ih, List.replicate_succ]

/-- `Top` returns on every state whose count is zero or a valid position. -/
theorem Top_of_in_bounds {α : Type} (st : stack α)
    (h : st.size = 0 ∨ (1 ≤ st.size ∧ st.size ≤ st.items.length)) :
    ∃ v, st.Top = .ok (v, st) := by
  rcases h with h0 | ⟨h1, h2⟩
  · exact ⟨none, Top_of_size_zero st h0⟩
  · have hne : ¬ st.size = 0 := by omega
    have hlt : ¬ (st.size - 1 < 0) := by omega
    have hidx : (st.size - 1).toNat < st.items.length := by omega
    have hget : st.items[(st.size - 1).toNat]? = some st.items[(st.size - 1).toNat] :=
      List.getElem?_eq_getElem hidx
    refine ⟨st.items[(st.size - 1).toNat], ?_⟩
    simp only [stack.Top, hne, goIndex, hlt, hget, if_false]

theorem Reachable.in_bounds {α : Type} {st : stack α} (h : Reachable st) :
    st.size = 0 ∨ (1 ≤ st.size ∧ st.size ≤ st.items.length) := by
  have := h.size_eq
  omega

/-- From a state with `size == len(items)`, a sequence of `Push` and `Pop` calls
that never pops more than is there returns, and the count moves by pushes minus
pops. -/
theorem run_push_pop_size {α : Type} (cs : List (Call α)) :
    ∀ st : stack α, st.size = st.items.length →
      (∀ c ∈ cs, c.isPush = true ∨ c.isPop = true) →
      (∀ k, k ≤ cs.length →
        (countPop (cs.take k) : Int) ≤ st.size + countPush (cs.take k)) →
      ∃ rs st1, run st cs = .ok (rs, st1)
        ∧ st1.size = st.size + countPush cs - countPop cs := by
  induction cs with
  | nil =>
    intro st _ _ _
    exact ⟨[], st, rfl, by simp [countPush, countPop]⟩
  | cons c cs ih =>
    intro st hwf hcs hpre
    have htail : ∀ c1 ∈ cs, c1.isPush = true ∨ c1.isPop = true :=
      fun c1 hc1 => hcs c1 (List.mem_cons_of_mem _ hc1)
    cases c with
    | push v =>
      have hwf1 : (st.Push v).size = (st.Push v).items.length :=
        step_size_eq st _ (.push v) .unit hwf rfl
      have hpre1 : ∀ k, k ≤ cs.length →
          (countPop (cs.take k) : Int) ≤ (st.Push v).size + countPush (cs.take k) := by
        intro k hk
        have := hpre (k + 1) (by simpa using hk)
        simp only [List.take_succ_cons, countPop, countPush, List.countP_cons,
          Call.isPop, Call.isPush] at this
        simp only [countPop, countPush, stack.Push]
        simp at this
        omega
      obtain ⟨rs, st1, hrun, hsize⟩ := ih (st.Push v) hwf1 htail hpre1
      refine ⟨.unit :: rs, st1, by simp [run, step, hrun], ?_⟩
      rw [hsize]
      simp only [countPop, countPush, List.countP_cons, Call.isPop, Call.isPush,
        stack.Push]
      simp
      omega
    | pop =>
      have hpos : 0 < st.size := by
        have := hpre 1 (by simp)
        simp [countPop, countPush, Call.isPop, Call.isPush] at this
        omega
      obtain ⟨es, e, _, _, hpop, _⟩ := Pop_Top_of_size_eq_pos st hwf hpos
      have hstep : step st .pop = .ok (.val e, ⟨st.size - 1, es⟩) := by
        simp [step, hpop]
      have hwf1 := step_size_eq st _ .pop (.val e) hwf hstep
      have hpre1 : ∀ k, k ≤ cs.length →
          (countPop (cs.take k) : Int)
            ≤ (⟨st.size - 1, es⟩ : stack α).size + countPush (cs.take k) := by
        intro k hk
        have := hpre (k + 1) (by simpa using hk)
        simp only [List.take_succ_cons, countPop, countPush, List.countP_cons,
          Call.isPop, Call.isPush] at this
        simp only [countPop, countPush]
        simp at this
        omega
      obtain ⟨rs, st1, hrun, hsize⟩ := ih _ hwf1 htail hpre1
      refine ⟨.val e :: rs, st1, by simp [run, hstep, hrun], ?_⟩
      rw [hsize]
      simp only [countPop, countPush, List.countP_cons, Call.isPop, Call.isPush]
      simp
      omega
    | top => simpa [Call.isPush, Call.isPop] using hcs .top (List.mem_cons_self _ _)
    | size => simpa [Call.isPush, Call.isPop] using hcs .size (List.mem_cons_self _ _)
    | destroy =>
      simpa [Call.isPush, Call.isPop] using hcs .destroy (List.mem_cons_self _ _)

/-- Every state on the way of a run from a reachable state is reachable. -/
theorem Reachable.run {α : Type} {st : stack α} (h : Reachable st) (cs : List (Call α))
    (rs : List (Ret α)) (st1 : stack α) (hrun : Adt.run st cs = .ok (rs, st1)) :
    Reachable st1 := by
  induction cs generalizing st rs with
  | nil =>
    simp only [Adt.run, Except.ok.injEq, Prod.mk.injEq] at hrun
    exact hrun.2 ▸ h
  | cons c cs ih =>
    rw [Adt.run] at hrun
    split at hrun
    · exact absurd hrun (by simp)
    · rename_i r st2 hstep
      split at hrun
      · exact absurd hrun (by simp)
      · rename_i rs1 st3 hrest
        simp only [Except.ok.injEq, Prod.mk.injEq] at hrun
        obtain ⟨-, rfl⟩ := hrun
        exact ih (Reachable.call c r h hstep) rs1 hrest

/-- On a state with `size == len(items)` one call does what the list model
does on `items`. -/
theorem step_eq_listModel {α : Type} (st : stack α) (h : st.size = st.items.length)
    (c : Call α) :
    step st c = .ok ((listModelStep st.items c).1,
      ⟨((listModelStep st.items c).2.length : Int), (listModelStep st.items c).2⟩) := by
  cases st with
  | mk n es =>
    simp only at h
    subst h
    cases c with
    | push elm => simp [step, Push_mk, listModelStep]
    | pop =>
      rcases List.eq_nil_or_concat es with hnil | ⟨es1, e, hcat⟩
      · subst hnil
        simp [step, stack.Pop, listModelStep]
      · subst hcat
        have hp := Pop_snoc es1 e
        simp only [List.concat_eq_append, List.length_append, List.length_singleton,
          Nat.cast_add, Nat.cast_one]
        simp [step, hp, listModelStep]
    | top =>
      rcases List.eq_nil_or_concat es with hnil | ⟨es1, e, hcat⟩
      · subst hnil
        simp [step, stack.Top, listModelStep]
      · subst hcat
        have hp := Top_snoc es1 e
        simp only [List.concat_eq_append, List.length_append, List.length_singleton,
          Nat.cast_add, Nat.cast_one]
        simp [step, hp, listModelStep]
    | size => simp [step, stack.Size, listModelStep]
    | destroy => simp [step, stack.Destroy, listModelStep]

/-- On a state with `size == len(items)` a sequence of calls does what the list
model does on `items`; in particular it returns. -/
theorem run_eq_listModel {α : Type} (cs : List (Call α)) :
    ∀ st : stack α, st.size = st.items.length →
      run st cs = .ok ((listModelRun st.items cs).1,
        ⟨((listModelRun st.items cs).2.length : Int), (listModelRun st.items cs).2⟩) := by
  induction cs with
  | nil =>
    intro st h
    cases st
    simp_all [run, listModelRun]
  | cons c cs ih =>
    intro st h
    have hstep := step_eq_listModel st h c
    have hrest := ih ⟨((listModelStep st.items c).2.length : Int), (listModelStep st.items c).2⟩ rfl
    simp only at hrest
    simp [run, hstep, hrest, listModelRun]

/-- List model, `Push` and `Pop` calls only: if every `Pop` leaves at least `D`
elements, the first `D` elements at the end are the first `D` of the start list
followed by the pushed values, and the length moves by pushes minus pops. -/
theorem listModelRun_take {α : Type} (D : Nat) (cs : List (Call α)) :
    ∀ l : List (Value α),
      (∀ c ∈ cs, c.isPush = true ∨ c.isPop = true) →
      (∀ k, k < cs.length → cs[k]? = some Call.pop →
        D + countPop (cs.take (k + 1)) ≤ l.length + countPush (cs.take (k + 1))) →
      ((listModelRun l cs).2).take D = (l ++ pushed cs).take D
        ∧ (listModelRun l cs).2.length + countPop cs = l.length + countPush cs := by
  induction cs with
  | nil =>
    intro l _ _
    simp [listModelRun, pushed, countPop, countPush]
  | cons c cs ih =>
    intro l hcs hpre
    have htail : ∀ c1 ∈ cs, c1.isPush = true ∨ c1.isPop = true :=
      fun c1 hc1 => hcs c1 (List.mem_cons_of_mem _ hc1)
    cases c with
    | push v =>
      have hpre1 : ∀ k, k < cs.length → cs[k]? = some Call.pop →
          D + countPop (cs.take (k + 1))
            ≤ (l ++ [v]).length + countPush (cs.take (k + 1)) := by
        intro k hk hpop
        have := hpre (k + 1) (by simpa using hk) (by simpa using hpop)
        simp only [List.take_succ_cons, countPop, countPush, List.countP_cons,
          Call.isPop, Call.isPush] at this
        simp only [countPop, countPush, List.length_append, List.length_singleton]
        simp at this
        omega
      obtain ⟨htake, hlen⟩ := ih (l ++ [v]) htail hpre1
      refine ⟨?_, ?_⟩
      · simp only [listModelRun, listModelStep, htake]
        simp [pushed, List.filterMap_cons, Call.pushedValue]
      · simp only [listModelRun, listModelStep]
        simp only [countPop, countPush, List.countP_cons, Call.isPop, Call.isPush,
          List.length_append, List.length_singleton] at hlen ⊢
        simp
        omega
    | pop =>
      have h0 := hpre 0 (by simp) (by simp)
      simp [countPop, countPush, Call.isPop, Call.isPush] at h0
      rcases List.eq_nil_or_concat l with hnil | ⟨l1, e, hcat⟩
      · subst hnil
        simp at h0
      · subst hcat
        simp only [List.concat_eq_append, List.length_append, List.length_singleton] at h0 hpre ⊢
        have hpre1 : ∀ k, k < cs.length → cs[k]? = some Call.pop →
            D + countPop (cs.take (k + 1)) ≤ l1.length + countPush (cs.take (k + 1)) := by
          intro k hk hpop
          have := hpre (k + 1) (by simpa using hk) (by simpa using hpop)
          simp only [List.take_succ_cons, countPop, countPush, List.countP_cons,
            Call.isPop, Call.isPush] at this
          simp only [countPop, countPush]
          simp at this
          omega
        obtain ⟨htake, hlen⟩ := ih l1 htail hpre1
        have hD : D ≤ l1.length := by omega
        refine ⟨?_, ?_⟩
        · simp only [listModelRun, listModelStep, List.dropLast_concat, htake]
          simp only [pushed, List.filterMap_cons, Call.pushedValue, List.append_assoc]
          rw [List.take_append_of_le_length hD, List.take_append_of_le_length hD]
        · simp only [listModelRun, listModelStep, List.dropLast_concat]
          simp only [countPop, countPush, List.countP_cons, Call.isPop, Call.isPush] at hlen ⊢
          simp
          omega
    | top => simpa [Call.isPush, Call.isPop] using hcs .top (List.mem_cons_self _ _)
    | size => simpa [Call.isPush, Call.isPop] using hcs .size (List.mem_cons_self _ _)
    | destroy =>
      simpa [Call.isPush, Call.isPop] using hcs .destroy (List.mem_cons_self _ _)

theorem pushed_length {α : Type} (cs : List (Call α)) :
    (pushed cs).length = countPush cs := by
  induction cs with
  | nil => rfl
  | cons c cs ih =>
    cases c <;>
      simp_all [pushed, countPush, List.filterMap_cons, Call.pushedValue, Call.isPush]

/-- On a state with `size == len(items)` and `size != 0` the two slice accesses
of `Pop` (and the one of `Top`, at the same position) are in bounds. -/
theorem accesses_in_bounds {α : Type} (st : stack α) (h : st.size = st.items.length)
    (hne : st.size ≠ 0) :
    (∃ e, goIndex st.items (st.size - 1) = .ok e)
    ∧ ∃ rest, goSliceTo st.items (st.size - 1) = .ok rest := by
  cases st with
  | mk n es =>
    simp only at h hne
    subst h
    rcases List.eq_nil_or_concat es with hnil | ⟨es1, e, hcat⟩
    · subst hnil
      simp at hne
    · subst hcat
      have hidx : ((es1 ++ [e]).length : Int) - 1 = (es1.length : Int) := by simp
      simp only [List.concat_eq_append, hidx]
      exact ⟨⟨e, goIndex_snoc es1 e⟩, ⟨es1, goSliceTo_snoc es1 e⟩⟩

/-- From a state with `size == len(items)`, a sequence of `Push` and `Pop` calls
returns; the count moves up by the pushes and down by the pops made while
`size != 0`, and every pop is made either while `size != 0` or while
`size == 0`. -/
theorem run_size_accounting {α : Type} (cs : List (Call α)) :
    ∀ st : stack α, st.size = st.items.length →
      (∀ c ∈ cs, c.isPush = true ∨ c.isPop = true) →
      ∃ rs st1, run st cs = .ok (rs, st1)
        ∧ st1.size + popsOnNonEmpty st cs = st.size + countPush cs
        ∧ popsOnNonEmpty st cs + popsOnEmpty st cs = countPop cs := by
  induction cs with
  | nil =>
    intro st _ _
    exact ⟨[], st, rfl, by simp [popsOnNonEmpty, countPush], by simp [popsOnNonEmpty,
      popsOnEmpty, countPop]⟩
  | cons c cs ih =>
    intro st hwf hcs
    have htail : ∀ c1 ∈ cs, c1.isPush = true ∨ c1.isPop = true :=
      fun c1 hc1 => hcs c1 (List.mem_cons_of_mem _ hc1)
    cases c with
    | push v =>
      have hstep : step st (.push v) = .ok (.unit, st.Push v) := rfl
      have hwf1 := step_size_eq st _ (.push v) .unit hwf hstep
      have hsz : (st.Push v).size = st.size + 1 := rfl
      generalize st.Push v = st2 at hstep hwf1 hsz
      obtain ⟨rs, st1, hrun, hsize, hpops⟩ := ih st2 hwf1 htail
      refine ⟨.unit :: rs, st1, by simp [run, hstep, hrun], ?_, ?_⟩
      · simp only [popsOnNonEmpty, hstep, Call.isPop, countPush, List.countP_cons,
          Call.isPush] at hsize ⊢
        simp
        omega
      · simp only [popsOnNonEmpty, popsOnEmpty, hstep, Call.isPop, countPop,
          List.countP_cons] at hpops ⊢
        simp
        omega
    | pop =>
      by_cases h0 : st.size = 0
      · have hpop := Pop_of_size_zero st h0
        have hstep : step st .pop = .ok (.val none, st) := by simp [step, hpop]
        obtain ⟨rs, st1, hrun, hsize, hpops⟩ := ih st hwf htail
        refine ⟨.val none :: rs, st1, by simp [run, hstep, hrun], ?_, ?_⟩
        · simp only [popsOnNonEmpty, hstep, Call.isPop, stack.Size, countPush,
            List.countP_cons, Call.isPush] at hsize ⊢
          simp [h0] at hsize ⊢
          omega
        · simp only [popsOnNonEmpty, popsOnEmpty, hstep, Call.isPop, stack.Size, countPop,
            List.countP_cons] at hpops ⊢
          simp [h0]
          omega
      · have hpos : 0 < st.size := by omega
        obtain ⟨es, e, _, _, hpop, _⟩ := Pop_Top_of_size_eq_pos st hwf hpos
        have hstep : step st .pop = .ok (.val e, ⟨st.size - 1, es⟩) := by
          simp [step, hpop]
        have hwf1 := step_size_eq st _ .pop (.val e) hwf hstep
        obtain ⟨rs, st1, hrun, hsize, hpops⟩ := ih _ hwf1 htail
        refine ⟨.val e :: rs, st1, by simp [run, hstep, hrun], ?_, ?_⟩
        · simp only [popsOnNonEmpty, hstep, Call.isPop, stack.Size, countPush,
            List.countP_cons, Call.isPush] at hsize ⊢
          simp [h0] at hsize ⊢
          omega
        · simp only [popsOnNonEmpty, popsOnEmpty, hstep, Call.isPop, stack.Size, countPop,
            List.countP_cons] at hpops ⊢
          simp [h0]
          omega
    | top => simpa [Call.isPush, Call.isPop] using hcs .top (List.mem_cons_self _ _)
    | size => simpa [Call.isPush, Call.isPop] using hcs .size (List.mem_cons_self _ _)
    | destroy =>
      simpa [Call.isPush, Call.isPop] using hcs .destroy (List.mem_cons_self _ _)

/-- List model: when no call pushes `nil`, no `nil` gets into the list. -/
theorem listModelRun_no_nil {α : Type} (cs : List (Call α)) :
    ∀ l : List (Value α), (∀ c ∈ cs, c ≠ Call.push none) → none ∉ l →
      none ∉ (listModelRun l cs).2 := by
  induction cs with
  | nil =>
    intro l _ hl
    simpa [listModelRun] using hl
  | cons c cs ih =>
    intro l hcs hl
    have htail : ∀ c1 ∈ cs, c1 ≠ Call.push none :=
      fun c1 hc1 => hcs c1 (List.mem_cons_of_mem _ hc1)
    have hc := hcs c (List.mem_cons_self _ _)
    simp only [listModelRun]
    apply ih _ htail
    cases c with
    | push v =>
      have hv : v ≠ none := fun hv => hc (by rw [hv])
      simp only [listModelStep, List.mem_append, List.mem_singleton, not_or]
      exact ⟨hl, fun h => hv h.symm⟩
    | pop =>
      simp only [listModelStep]
      exact fun h => hl (List.dropLast_subset l h)
    | top => simpa [listModelStep] using hl
    | size => simpa [listModelStep] using hl
    | destroy => simp [listModelStep]

/-- `Top` assigns nothing: when it returns, the state is the one it was
called on. -/
theorem Top_read_only {α : Type} (st : stack α) (v : Value α) (st1 : stack α)
    (h : st.Top = .ok (v, st1)) : st1 = st := by
  unfold stack.Top at h
  split at h
  · simp only [Except.ok.injEq, Prod.mk.injEq] at h
    exact h.2.symm
  · split at h
    · exact absurd h (by simp)
    · simp only [Except.ok.injEq, Prod.mk.injEq] at h
      exact h.2.symm

/-- Calls of `Top` in a row that return leave the state as it was, and each
returns what `Top` returns on that state. -/
theorem topN_read_only {α : Type} (M : Nat) :
    ∀ (st0 : stack α) (vs : List (Value α)) (st1 : stack α),
      topN M st0 = .ok (vs, st1) →
        st1 = st0 ∧ vs.length = M ∧ ∀ x ∈ vs, st0.Top = .ok (x, st0) := by
  induction M with
  | zero =>
    intro st0 vs st1 h
    simp only [topN, Except.ok.injEq, Prod.mk.injEq] at h
    obtain ⟨rfl, rfl⟩ := h
    simp
  | succ M ih =>
    intro st0 vs st1 h
    rw [topN] at h
    split at h
    · exact absurd h (by simp)
    · rename_i v st2 htop
      have h2 : st2 = st0 := Top_read_only st0 v st2 htop
      subst h2
      split at h
      · exact absurd h (by simp)
      · rename_i vs1 st3 hrest
        simp only [Except.ok.injEq, Prod.mk.injEq] at h
        obtain ⟨rfl, rfl⟩ := h
        obtain ⟨h3, hlen, hall⟩ := ih st2 vs1 st3 hrest
        refine ⟨h3, by simp [hlen], ?_⟩
        intro x hx
        rcases List.mem_cons.mp hx with hx | hx
        · rw [hx]
          exact htop
        · exact hall x hx

/-! ## The contract of the stack -/

/-- C1 (LIFO order): after `NewStack()` and `Push(v1)`, ..., `Push(vn)`, the next
`n` calls of `Pop()` return `vn`, ..., `v1` in this order, `Size()` reads `n-k`
after the `k`-th of them, and one more `Pop()` returns `nil` with `Size() == 0`.
The second part is the scenario push `a`, `b`, `c`; pop `c` (size 2); top `b`
(size 2); pop `b`; pop `a`; pop `nil` (size 0). -/
theorem C1_lifo_order {α : Type} (vs : List (Value α)) (a b c : Value α) :
    (∃ st : stack α,
        popN vs.length (pushAll NewStack vs)
          = .ok (vs.reverse.zip ((List.range vs.length).reverse.map Int.ofNat), st)
        ∧ st.Pop = .ok (none, st) ∧ st.Size = 0)
    ∧ run (NewStack : stack α)
        [.push a, .push b, .push c, .pop, .size, .top, .size, .pop, .pop, .pop, .size]
      = .ok ([.unit, .unit, .unit, .val c, .int 2, .val b, .int 2, .val b, .val a,
              .val none, .int 0], NewStack) := by
  refine ⟨⟨⟨0, []⟩, ?_, rfl, rfl⟩, rfl⟩
  rw [pushAll_NewStack, popN_all]

/-- C2 (pushes only): after `NewStack()` and `Push(v1)`, ..., `Push(vn)` with no
pop in between, `Size() == n` (so `0` for no push), and for `n > 0` `Top()`
returns `vn` and leaves the state as it is. -/
theorem C2_push_size_top {α : Type} (vs : List (Value α)) :
    (pushAll (NewStack : stack α) vs).Size = vs.length
    ∧ ∀ hne : vs ≠ [],
        (pushAll (NewStack : stack α) vs).Top
          = .ok (vs.getLast hne, pushAll NewStack vs) := by
  rw [pushAll_NewStack]
  refine ⟨rfl, fun hne => ?_⟩
  rcases List.eq_nil_or_concat vs with hnil | ⟨es, e, hcat⟩
  · exact absurd hnil hne
  · subst hcat
    have ht := Top_snoc (α := α) es e
    simpa using ht

/-- Witness of C2: three pushes, one of them of `nil`. -/
theorem C2_push_size_top_witness :
    (pushAll (NewStack : stack Nat) [some 1, none, some 3]).Size = 3
    ∧ (pushAll (NewStack : stack Nat) [some 1, none, some 3]).Top
        = .ok (some 3, pushAll NewStack [some 1, none, some 3]) :=
  ⟨(C2_push_size_top [some 1, none, some 3]).1,
   (C2_push_size_top [some 1, none, some 3]).2 (by decide)⟩

/-- C3 (push/pop round trip): on every reachable state, `Push(v)` followed by
`Pop()` returns `v` and gives back the state before the push, so `Size()` is what
it was. -/
theorem C3_push_pop_round_trip {α : Type} (st : stack α) (h : Reachable st)
    (v : Value α) :
    ∃ st1, (st.Push v).Pop = .ok (v, st1) ∧ st1.Size = st.Size ∧ st1 = st :=
  ⟨st, Pop_Push_of_size_eq st h.size_eq v, rfl, rfl⟩

/-- Witness of C3: the state after two pushes and a pop. -/
theorem C3_push_pop_round_trip_witness :
    Reachable (⟨1, [some 4]⟩ : stack Nat)
    ∧ ∃ st1, ((⟨1, [some 4]⟩ : stack Nat).Push (some 9)).Pop = .ok (some 9, st1)
        ∧ st1.Size = 1 ∧ st1 = ⟨1, [some 4]⟩ :=
  have hr : Reachable (⟨1, [some 4]⟩ : stack Nat) :=
    Reachable.call .pop (.val (some 5))
      (Reachable.call (.push (some 5)) .unit
        (Reachable.call (.push (some 4)) .unit Reachable.new rfl) rfl) rfl
  ⟨hr, C3_push_pop_round_trip ⟨1, [some 4]⟩ hr (some 9)⟩

/-- C4 (pop on empty): on every state with `Size() == 0`, `Pop()` returns `nil`
and leaves `size` and `items` as they are; it does not panic. -/
theorem C4_pop_empty {α : Type} (st : stack α) (h : st.Size = 0) :
    st.Pop = .ok (none, st) :=
  Pop_of_size_zero st h

/-- Witness of C4: the new stack, and a stack just reset by `Destroy()`. -/
theorem C4_pop_empty_witness :
    ((NewStack : stack Nat).Size = 0 ∧ (NewStack : stack Nat).Pop = .ok (none, NewStack))
    ∧ ((pushAll (NewStack : stack Nat) [some 1, some 2]).Destroy.Size = 0
        ∧ (pushAll (NewStack : stack Nat) [some 1, some 2]).Destroy.Pop
            = .ok (none, (pushAll (NewStack : stack Nat) [some 1, some 2]).Destroy)) :=
  ⟨⟨rfl, C4_pop_empty NewStack rfl⟩,
   ⟨rfl, C4_pop_empty (pushAll (NewStack : stack Nat) [some 1, some 2]).Destroy rfl⟩⟩

/-- C5 (pop on non-empty): on every reachable state with `Size() == n > 0` the
items are `e1..en`, `Pop()` returns `en`, and afterwards the items are
`e1..e(n-1)` and `Size() == n-1`. -/
theorem C5_pop_nonempty {α : Type} (st : stack α) (h : Reachable st)
    (hpos : 0 < st.Size) :
    ∃ es e st1, st.items = es ++ [e] ∧ ((es ++ [e]).length : Int) = st.Size
      ∧ st.Pop = .ok (e, st1) ∧ st1.items = es ∧ st1.Size = st.Size - 1 := by
  obtain ⟨es, e, hitems, hlen, hpop, _⟩ := Pop_Top_of_size_eq_pos st h.size_eq hpos
  refine ⟨es, e, ⟨st.size - 1, es⟩, hitems, ?_, hpop, rfl, rfl⟩
  simp only [List.length_append, List.length_singleton, Nat.cast_add, Nat.cast_one,
    stack.Size]
  omega

/-- Witness of C5: the state after three pushes. -/
theorem C5_pop_nonempty_witness :
    Reachable (pushAll (NewStack : stack Nat) [some 1, some 2, some 3])
    ∧ 0 < (pushAll (NewStack : stack Nat) [some 1, some 2, some 3]).Size
    ∧ ∃ es e st1, (pushAll (NewStack : stack Nat) [some 1, some 2, some 3]).items = es ++ [e]
        ∧ ((es ++ [e]).length : Int)
            = (pushAll (NewStack : stack Nat) [some 1, some 2, some 3]).Size
        ∧ (pushAll (NewStack : stack Nat) [some 1, some 2, some 3]).Pop = .ok (e, st1)
        ∧ st1.items = es
        ∧ st1.Size = (pushAll (NewStack : stack Nat) [some 1, some 2, some 3]).Size - 1 :=
  ⟨Reachable.new.pushAll _, by decide,
   C5_pop_nonempty _ (Reachable.new.pushAll _) (by decide)⟩

/-- C6 (result of `Top`): on every reachable state, `Top()` returns `nil` when
`Size() == 0`, and otherwise the last element of `items`, which is also what the
next `Pop()` returns. -/
theorem C6_top_result {α : Type} (st : stack α) (h : Reachable st) :
    (st.Size = 0 → st.Top = .ok (none, st))
    ∧ (st.Size ≠ 0 → ∃ hne : st.items ≠ [],
        st.Top = .ok (st.items.getLast hne, st)
        ∧ ∃ st1, st.Pop = .ok (st.items.getLast hne, st1)) := by
  refine ⟨fun h0 => Top_of_size_zero st h0, fun hne0 => ?_⟩
  have hwf := h.size_eq
  have hpos : 0 < st.size := by
    simp only [stack.Size] at hne0
    omega
  obtain ⟨es, e, hitems, _, hpop, htop⟩ := Pop_Top_of_size_eq_pos st hwf hpos
  have hne : st.items ≠ [] := by simp [hitems]
  have hlast : st.items.getLast hne = e := by simp [hitems]
  exact ⟨hne, by rw [hlast, htop], _, by rw [hlast, hpop]⟩

/-- Witness of C6: the state after two pushes, with `Top() == Pop() == 2`. -/
theorem C6_top_result_witness :
    Reachable (pushAll (NewStack : stack Nat) [some 1, some 2])
    ∧ (pushAll (NewStack : stack Nat) [some 1, some 2]).Size ≠ 0
    ∧ ∃ hne : (pushAll (NewStack : stack Nat) [some 1, some 2]).items ≠ [],
        (pushAll (NewStack : stack Nat) [some 1, some 2]).Top
          = .ok ((pushAll (NewStack : stack Nat) [some 1, some 2]).items.getLast hne,
                 pushAll (NewStack : stack Nat) [some 1, some 2])
        ∧ ∃ st1, (pushAll (NewStack : stack Nat) [some 1, some 2]).Pop
          = .ok ((pushAll (NewStack : stack Nat) [some 1, some 2]).items.getLast hne, st1) :=
  ⟨Reachable.new.pushAll _, by decide,
   (C6_top_result _ (Reachable.new.pushAll _)).2 (by decide)⟩

/-- C7 (`Top` is idempotent and read-only): on every state of a stack, that is,
every state reachable from `NewStack()`, `N` calls of `Top()` in a row, for every
`N` and so for every `N >= 1`, all return the value of the first call and leave
`size` and `items` as they were.  The read-only half needs no reachability:
from whatever state, calls of `Top()` that return leave the state as it was and
each returns what `Top()` returns on that state. -/
theorem C7_top_idempotent {α : Type} (st : stack α) (h : Reachable st) (N : Nat) :
    (∃ v, st.Top = .ok (v, st) ∧ topN N st = .ok (List.replicate N v, st))
    ∧ ∀ (st0 : stack α) (M : Nat) (vs : List (Value α)) (st1 : stack α),
        topN M st0 = .ok (vs, st1) →
          st1 = st0 ∧ vs.length = M ∧ ∀ x ∈ vs, st0.Top = .ok (x, st0) := by
  obtain ⟨v, hv⟩ := Top_of_in_bounds st h.in_bounds
  exact ⟨⟨v, hv, topN_of_Top st v hv N⟩, fun st0 M vs st1 hM => topN_read_only M st0 vs st1 hM⟩

/-- Witness of C7: three calls of `Top()` after two pushes all return `2`. -/
theorem C7_top_idempotent_witness :
    Reachable (pushAll (NewStack : stack Nat) [some 1, some 2])
    ∧ topN 3 (pushAll (NewStack : stack Nat) [some 1, some 2])
        = .ok ([some 2, some 2, some 2], pushAll (NewStack : stack Nat) [some 1, some 2])
    ∧ (∃ v, (pushAll (NewStack : stack Nat) [some 1, some 2]).Top
          = .ok (v, pushAll (NewStack : stack Nat) [some 1, some 2])
        ∧ topN 3 (pushAll (NewStack : stack Nat) [some 1, some 2])
          = .ok (List.replicate 3 v, pushAll (NewStack : stack Nat) [some 1, some 2])) :=
  ⟨Reachable.new.pushAll _, rfl,
   (C7_top_idempotent _ (Reachable.new.pushAll _) 3).1⟩

/-- C8 (count invariant): in every state reachable from `NewStack()` by `Push`,
`Pop`, `Top`, `Size` and `Destroy` calls, `size == len(items)`; and every further
sequence of calls that returns ends in such a state. -/
theorem C8_count_invariant {α : Type} (st : stack α) (h : Reachable st) :
    st.size = st.items.length
    ∧ ∀ (cs : List (Call α)) (rs : List (Ret α)) (st1 : stack α),
        run st cs = .ok (rs, st1) → st1.size = st1.items.length :=
  ⟨h.size_eq, fun cs rs st1 hrun => (h.run cs rs st1 hrun).size_eq⟩

/-- Witness of C8: the state after push, push, top, pop, size. -/
theorem C8_count_invariant_witness :
    Reachable (⟨1, [some 4]⟩ : stack Nat)
    ∧ (⟨1, [some 4]⟩ : stack Nat).size = (⟨1, [some 4]⟩ : stack Nat).items.length
    ∧ ∀ (cs : List (Call Nat)) (rs : List (Ret Nat)) (st1 : stack Nat),
        run ⟨1, [some 4]⟩ cs = .ok (rs, st1) → st1.size = st1.items.length :=
  have hr : Reachable (⟨1, [some 4]⟩ : stack Nat) :=
    Reachable.new.run [.push (some 4), .push (some 5), .top, .pop, .size]
      [.unit, .unit, .val (some 5), .val (some 5), .int 1] _ rfl
  ⟨hr, C8_count_invariant _ hr⟩

/-- C9 (`Destroy` resets, the stack stays usable): after `NewStack()`, pushes of
`v1..vM` (`Size() == M`) and `Destroy()`, `Size() == 0`; a following `Push(x)`
gives `Size() == 1` and `Top() == x`. -/
theorem C9_destroy_resets {α : Type} (vs : List (Value α)) (x : Value α) :
    (pushAll (NewStack : stack α) vs).Size = vs.length
    ∧ (pushAll (NewStack : stack α) vs).Destroy.Size = 0
    ∧ ((pushAll (NewStack : stack α) vs).Destroy.Push x).Size = 1
    ∧ ((pushAll (NewStack : stack α) vs).Destroy.Push x).Top
        = .ok (x, (pushAll (NewStack : stack α) vs).Destroy.Push x) := by
  rw [pushAll_NewStack]
  exact ⟨rfl, rfl, rfl, rfl⟩

/-- C10, as stated, fails: `Pop()` on the new stack followed by `Push(7)` is an
interleaving of one push and one pop, and `Size()` is `1` afterwards, not
`1 - 1`. -/
theorem C10_counterexample :
    run (NewStack : stack Nat) [.pop, .push (some 7)]
      = .ok ([.val none, .unit], ⟨1, [some 7]⟩)
    ∧ countPop ([.pop, .push (some 7)] : List (Call Nat))
        ≤ countPush ([.pop, .push (some 7)] : List (Call Nat))
    ∧ ¬ (∀ cs : List (Call Nat), (∀ c ∈ cs, c.isPush = true ∨ c.isPop = true) →
          countPop cs ≤ countPush cs →
          ∃ rs st, run NewStack cs = .ok (rs, st)
            ∧ st.Size = (countPush cs : Int) - countPop cs) := by
  refine ⟨rfl, by decide, fun hall => ?_⟩
  obtain ⟨rs, st, hrun, hsize⟩ := hall [.pop, .push (some 7)] (by decide) (by decide)
  have hst : st = ⟨1, [some 7]⟩ := by
    have h2 : run (NewStack : stack Nat) [.pop, .push (some 7)]
        = .ok ([.val none, .unit], ⟨1, [some 7]⟩) := rfl
    rw [h2] at hrun
    simp only [Except.ok.injEq, Prod.mk.injEq] at hrun
    exact hrun.2.symm
  subst hst
  exact absurd hsize (by decide)

/-- C10, amended (size after interleaved pushes and pops): for every sequence of
`P` `Push` calls and `Q` `Pop` calls on a new stack in which no `Pop` comes when
the stack is empty, that is, every initial part of the sequence has at least as
many pushes as pops (so `Q <= P`), all calls return and `Size() == P - Q`
afterwards. -/
theorem C10_size_after_interleaving {α : Type} (cs : List (Call α))
    (hcs : ∀ c ∈ cs, c.isPush = true ∨ c.isPop = true)
    (hpre : ∀ k, k ≤ cs.length → countPop (cs.take k) ≤ countPush (cs.take k)) :
    countPop cs ≤ countPush cs
    ∧ ∃ rs st, run NewStack cs = .ok (rs, st)
        ∧ st.Size = (countPush cs : Int) - countPop cs := by
  have hle : countPop cs ≤ countPush cs := by
    have := hpre cs.length (le_refl _)
    simpa using this
  have hpre1 : ∀ k, k ≤ cs.length →
      (countPop (cs.take k) : Int)
        ≤ (NewStack : stack α).size + countPush (cs.take k) := by
    intro k hk
    have := hpre k hk
    simp only [NewStack]
    omega
  obtain ⟨rs, st, hrun, hsize⟩ := run_push_pop_size cs NewStack rfl hcs hpre1
  refine ⟨hle, rs, st, hrun, ?_⟩
  rw [stack.Size, hsize]
  simp [NewStack]

/-- Witness of C10: push, pop, push, push, pop leaves `Size() == 3 - 2`. -/
theorem C10_size_after_interleaving_witness :
    (∀ c ∈ ([.push (some 1), .pop, .push (some 2), .push none, .pop] : List (Call Nat)),
        c.isPush = true ∨ c.isPop = true)
    ∧ (∀ k, k ≤ ([.push (some 1), .pop, .push (some 2), .push none, .pop]
            : List (Call Nat)).length →
        countPop (([.push (some 1), .pop, .push (some 2), .push none, .pop]
            : List (Call Nat)).take k)
          ≤ countPush (([.push (some 1), .pop, .push (some 2), .push none, .pop]
            : List (Call Nat)).take k))
    ∧ countPop ([.push (some 1), .pop, .push (some 2), .push none, .pop] : List (Call Nat))
        ≤ countPush ([.push (some 1), .pop, .push (some 2), .push none, .pop]
            : List (Call Nat))
    ∧ ∃ rs st,
        run (NewStack : stack Nat) [.push (some 1), .pop, .push (some 2), .push none, .pop]
          = .ok (rs, st)
        ∧ st.Size
          = (countPush ([.push (some 1), .pop, .push (some 2), .push none, .pop]
              : List (Call Nat)) : Int)
            - countPop ([.push (some 1), .pop, .push (some 2), .push none, .pop]
              : List (Call Nat)) :=
  ⟨by decide, by decide,
   C10_size_after_interleaving _ (by decide) (by decide)⟩

/-- C11, as stated, fails: after `Push(1)`, `Pop()`, `Push(2)` on a new stack
(`P = 2`, `Q = 1`) the next `Pop()` returns `2`, the second pushed value, and not
`v(P-Q) = v1 = 1`. -/
theorem C11_counterexample :
    run (NewStack : stack Nat) [.push (some 1), .pop, .push (some 2)]
      = .ok ([.unit, .val (some 1), .unit], ⟨1, [some 2]⟩)
    ∧ (⟨1, [some 2]⟩ : stack Nat).Pop = .ok (some 2, ⟨0, []⟩)
    ∧ (pushed ([.push (some 1), .pop, .push (some 2)] : List (Call Nat)))[2 - 1 - 1]?
        = some (some 1)
    ∧ ¬ (∀ cs : List (Call Nat), (∀ c ∈ cs, c.isPush = true ∨ c.isPop = true) →
          countPop cs < countPush cs →
          ∃ rs st v st1, run NewStack cs = .ok (rs, st) ∧ st.Pop = .ok (v, st1)
            ∧ (pushed cs)[countPush cs - countPop cs - 1]? = some v) := by
  refine ⟨rfl, rfl, rfl, fun hall => ?_⟩
  obtain ⟨rs, st, v, st1, hrun, hpop, hv⟩ :=
    hall [.push (some 1), .pop, .push (some 2)] (by decide) (by decide)
  have h2 : run (NewStack : stack Nat) [.push (some 1), .pop, .push (some 2)]
      = .ok ([.unit, .val (some 1), .unit], ⟨1, [some 2]⟩) := rfl
  rw [h2] at hrun
  simp only [Except.ok.injEq, Prod.mk.injEq] at hrun
  obtain ⟨-, rfl⟩ := hrun
  have h3 : (⟨1, [some 2]⟩ : stack Nat).Pop = .ok (some 2, ⟨0, []⟩) := rfl
  rw [h3] at hpop
  simp only [Except.ok.injEq, Prod.mk.injEq] at hpop
  obtain ⟨rfl, -⟩ := hpop
  exact absurd hv (by decide)

/-- C11, amended (next pop after interleaved pushes and pops): for every sequence
of `P` `Push` calls, pushing `v1..vP` in this order, and `Q < P` `Pop` calls on a
new stack in which every `Pop` leaves at least `P-Q` elements on the stack (so
none of `v1..v(P-Q)` is popped; all pops after all pushes is one such sequence),
all calls return and the next `Pop()` returns `v(P-Q)`. -/
theorem C11_next_pop {α : Type} (cs : List (Call α))
    (hcs : ∀ c ∈ cs, c.isPush = true ∨ c.isPop = true)
    (hQ : countPop cs < countPush cs)
    (hkeep : ∀ k, k < cs.length → cs[k]? = some Call.pop →
      countPush cs - countPop cs + countPop (cs.take (k + 1))
        ≤ countPush (cs.take (k + 1))) :
    ∃ rs st v st1, run NewStack cs = .ok (rs, st) ∧ st.Pop = .ok (v, st1)
      ∧ (pushed cs)[countPush cs - countPop cs - 1]? = some v := by
  have hkeep1 : ∀ k, k < cs.length → cs[k]? = some Call.pop →
      countPush cs - countPop cs + countPop (cs.take (k + 1))
        ≤ ([] : List (Value α)).length + countPush (cs.take (k + 1)) := by
    intro k hk hpop
    have := hkeep k hk hpop
    simpa using this
  obtain ⟨htake, hlen⟩ := listModelRun_take (countPush cs - countPop cs) cs [] hcs hkeep1
  have hrun := run_eq_listModel cs (NewStack : stack α) rfl
  simp only [NewStack] at hrun
  simp only [List.length_nil, Nat.zero_add, List.nil_append] at htake hlen
  generalize (listModelRun ([] : List (Value α)) cs).2 = f at htake hlen hrun
  generalize (listModelRun ([] : List (Value α)) cs).1 = rs at hrun
  have hflen : f.length = countPush cs - countPop cs := by omega
  rw [← hflen, List.take_length] at htake
  rcases List.eq_nil_or_concat f with hnil | ⟨f1, e, hcat⟩
  · subst hnil
    simp at hflen
    omega
  · subst hcat
    simp only [List.concat_eq_append, List.length_append, List.length_singleton,
      Nat.cast_add, Nat.cast_one] at hrun hflen htake
    refine ⟨rs, _, e, _, hrun, Pop_snoc f1 e, ?_⟩
    have hidx : countPush cs - countPop cs - 1 = f1.length := by omega
    have hlt : f1.length < (pushed cs).length := by
      rw [pushed_length]
      omega
    rw [hidx, List.getElem?_eq_getElem hlt]
    have hget : ((pushed cs).take (f1.length + 1))[f1.length]? = some e := by
      rw [← htake]
      simp
    rw [List.getElem?_take] at hget
    simp at hget
    rw [List.getElem?_eq_getElem hlt] at hget
    exact hget

/-- Witness of C11: push 1, push 2, push 3, pop, push 4, pop (`P = 4`, `Q = 2`);
the next `Pop()` returns `v2 = 2`. -/
theorem C11_next_pop_witness :
    (∀ c ∈ sampleCalls, c.isPush = true ∨ c.isPop = true)
    ∧ countPop sampleCalls < countPush sampleCalls
    ∧ (∀ k, k < sampleCalls.length → sampleCalls[k]? = some Call.pop →
        countPush sampleCalls - countPop sampleCalls + countPop (sampleCalls.take (k + 1))
          ≤ countPush (sampleCalls.take (k + 1)))
    ∧ ∃ rs st v st1, run NewStack sampleCalls = .ok (rs, st) ∧ st.Pop = .ok (v, st1)
        ∧ (pushed sampleCalls)[countPush sampleCalls - countPop sampleCalls - 1]? = some v :=
  ⟨by decide, by decide, by decide,
   C11_next_pop sampleCalls (by decide) (by decide) (by decide)⟩

/-- C12 (no crash): in every reachable state each of `Push`, `Pop`, `Top`, `Size`
and `Destroy` returns, and so does every further sequence of calls; when
`size != 0` the accesses `items[size]` and `items[:size]` of `Pop` after the
decrement and `items[size-1]` of `Top` are in bounds; on an empty stack `Pop` and
`Top` return `nil` and change nothing. -/
theorem C12_no_crash {α : Type} (st : stack α) (h : Reachable st) :
    (∀ c : Call α, ∃ r st1, step st c = .ok (r, st1))
    ∧ (∀ cs : List (Call α), ∃ rs st1, run st cs = .ok (rs, st1))
    ∧ (st.size ≠ 0 →
        (∃ e, goIndex st.items (st.size - 1) = .ok e)
        ∧ ∃ rest, goSliceTo st.items (st.size - 1) = .ok rest)
    ∧ (st.Size = 0 → st.Pop = .ok (none, st) ∧ st.Top = .ok (none, st)) :=
  ⟨fun c => ⟨_, _, step_eq_listModel st h.size_eq c⟩,
   fun cs => ⟨_, _, run_eq_listModel cs st h.size_eq⟩,
   fun hne => accesses_in_bounds st h.size_eq hne,
   fun h0 => ⟨Pop_of_size_zero st h0, Top_of_size_zero st h0⟩⟩

/-- Witness of C12: the state after push 1, push 2, push 3, pop, push 4, pop. -/
theorem C12_no_crash_witness :
    Reachable (⟨2, [some 1, some 2]⟩ : stack Nat)
    ∧ (∀ c : Call Nat, ∃ r st1, step (⟨2, [some 1, some 2]⟩ : stack Nat) c = .ok (r, st1))
    ∧ (∀ cs : List (Call Nat), ∃ rs st1,
        run (⟨2, [some 1, some 2]⟩ : stack Nat) cs = .ok (rs, st1))
    ∧ ((⟨2, [some 1, some 2]⟩ : stack Nat).size ≠ 0 →
        (∃ e, goIndex (⟨2, [some 1, some 2]⟩ : stack Nat).items
            ((⟨2, [some 1, some 2]⟩ : stack Nat).size - 1) = .ok e)
        ∧ ∃ rest, goSliceTo (⟨2, [some 1, some 2]⟩ : stack Nat).items
            ((⟨2, [some 1, some 2]⟩ : stack Nat).size - 1) = .ok rest)
    ∧ ((⟨2, [some 1, some 2]⟩ : stack Nat).Size = 0 →
        (⟨2, [some 1, some 2]⟩ : stack Nat).Pop = .ok (none, ⟨2, [some 1, some 2]⟩)
        ∧ (⟨2, [some 1, some 2]⟩ : stack Nat).Top = .ok (none, ⟨2, [some 1, some 2]⟩)) :=
  have hr : Reachable (⟨2, [some 1, some 2]⟩ : stack Nat) :=
    Reachable.new.run sampleCalls
      [.unit, .unit, .unit, .val (some 3), .unit, .val (some 4)] _ rfl
  ⟨hr, C12_no_crash _ hr⟩

/-- C13 (`Push(nil)` is accepted, the sentinel becomes ambiguous): on every
reachable state `Push(nil)` goes through and raises `Size()` by one, to a value
above zero, after which `Top()` and `Pop()` return `nil`; so there is a reachable
state with `Size() != 0` on which `Top()` and `Pop()` return `nil`. -/
theorem C13_push_nil {α : Type} (st : stack α) (h : Reachable st) :
    Reachable (st.Push none)
    ∧ (st.Push none).Size = st.Size + 1
    ∧ 0 < (st.Push none).Size
    ∧ (st.Push none).Top = .ok (none, st.Push none)
    ∧ (st.Push none).Pop = .ok (none, st)
    ∧ ∃ st2 : stack α, Reachable st2 ∧ st2.Size ≠ 0
        ∧ st2.Top = .ok (none, st2) ∧ ∃ st3, st2.Pop = .ok (none, st3) := by
  have hwf := h.size_eq
  have hpos : 0 < (st.Push none).Size := by
    simp only [stack.Size, stack.Push]
    omega
  refine ⟨Reachable.call (.push none) .unit h rfl, rfl, hpos,
    Top_Push_of_size_eq st hwf none, Pop_Push_of_size_eq st hwf none, ?_⟩
  refine ⟨NewStack.Push none, Reachable.call (.push none) .unit Reachable.new rfl,
    ?_, rfl, NewStack, rfl⟩
  simp [stack.Size, stack.Push, NewStack]

/-- Witness of C13: `Push(nil)` on the stack that holds `4`. -/
theorem C13_push_nil_witness :
    Reachable (⟨1, [some 4]⟩ : stack Nat)
    ∧ Reachable ((⟨1, [some 4]⟩ : stack Nat).Push none)
    ∧ ((⟨1, [some 4]⟩ : stack Nat).Push none).Size = (⟨1, [some 4]⟩ : stack Nat).Size + 1
    ∧ 0 < ((⟨1, [some 4]⟩ : stack Nat).Push none).Size
    ∧ ((⟨1, [some 4]⟩ : stack Nat).Push none).Top
        = .ok (none, (⟨1, [some 4]⟩ : stack Nat).Push none)
    ∧ ((⟨1, [some 4]⟩ : stack Nat).Push none).Pop = .ok (none, ⟨1, [some 4]⟩)
    ∧ ∃ st2 : stack Nat, Reachable st2 ∧ st2.Size ≠ 0
        ∧ st2.Top = .ok (none, st2) ∧ ∃ st3, st2.Pop = .ok (none, st3) :=
  have hr : Reachable (⟨1, [some 4]⟩ : stack Nat) :=
    Reachable.call (.push (some 4)) .unit Reachable.new rfl
  ⟨hr, C13_push_nil _ hr⟩

/-- C14 fails on the code for `Size`: in every state, the body of `Size()`
accesses `size` without a `Lock()` or `Unlock()` of the mutex, so its trace
breaks the lock discipline, while the traces of `Push`, `Pop`, `Top` and
`Destroy` start with `Lock()`, end with the deferred `Unlock()` and keep it. -/
theorem C14_size_without_lock {α : Type} (st : stack α) :
    mxTrace st .size = [.access]
    ∧ MxEvent.lock ∉ mxTrace st .size
    ∧ lockDisciplined false (mxTrace st .size) = false
    ∧ (∀ elm, lockDisciplined false (mxTrace st (.push elm)) = true)
    ∧ lockDisciplined false (mxTrace st .pop) = true
    ∧ lockDisciplined false (mxTrace st .top) = true
    ∧ lockDisciplined false (mxTrace st .destroy) = true := by
  refine ⟨rfl, by simp [mxTrace], rfl, fun _ => rfl, ?_, ?_, rfl⟩
  · simp only [mxTrace]
    split
    · rfl
    · split <;> rfl
  · simp only [mxTrace]
    split <;> rfl

/-- C16 (size is never negative): in every state reachable from `NewStack()`,
pops on an empty stack included, `Size() >= 0`. -/
theorem C16_size_nonneg {α : Type} (st : stack α) (h : Reachable st) :
    0 ≤ st.Size := by
  have := h.size_eq
  simp only [stack.Size]
  omega

/-- Witness of C16: the state after two pops on the new stack. -/
theorem C16_size_nonneg_witness :
    Reachable (NewStack : stack Nat) ∧ run (NewStack : stack Nat) [.pop, .pop]
        = .ok ([.val none, .val none], NewStack)
    ∧ 0 ≤ (NewStack : stack Nat).Size :=
  ⟨Reachable.new.run [.pop, .pop] [.val none, .val none] _ rfl, rfl,
   C16_size_nonneg _ (Reachable.new.run [.pop, .pop] [.val none, .val none] _ rfl)⟩

/-- C17 (refinement of a list model): for every sequence of `Push(v)`, `Pop`,
`Top`, `Size` and `Destroy` calls on `NewStack()`, all calls return, their
results are those of the list model (push = append at the end, pop = remove and
return the last element or `nil`, top = last element or `nil`, size = length,
destroy = empty list), and after the sequence, hence after every initial part of
it, `items` is the list of the model and `size` its length. -/
theorem C17_refines_list_model {α : Type} (cs : List (Call α)) :
    run (NewStack : stack α) cs
      = .ok ((listModelRun [] cs).1,
          ⟨((listModelRun ([] : List (Value α)) cs).2.length : Int), (listModelRun [] cs).2⟩)
    ∧ ∀ k, ∃ st : stack α,
        run (NewStack : stack α) (cs.take k) = .ok ((listModelRun [] (cs.take k)).1, st)
        ∧ st.items = (listModelRun [] (cs.take k)).2
        ∧ st.size = ((listModelRun ([] : List (Value α)) (cs.take k)).2.length : Int) :=
  ⟨run_eq_listModel cs NewStack rfl,
   fun k => ⟨_, run_eq_listModel (cs.take k) NewStack rfl, rfl, rfl⟩⟩

/-- C18 (exact size accounting): for every sequence of `Push` and `Pop` calls on
`NewStack()`, all calls return and `Size()` afterwards is the number of pushes
minus the number of pops made while `Size() != 0`; a pop made while
`Size() == 0` leaves it at `0`; and `Size() == P - Q` exactly when no pop was made
while `Size() == 0`. -/
theorem C18_size_accounting {α : Type} (cs : List (Call α))
    (hcs : ∀ c ∈ cs, c.isPush = true ∨ c.isPop = true) :
    (∃ rs st, run (NewStack : stack α) cs = .ok (rs, st)
      ∧ st.Size = (countPush cs : Int) - popsOnNonEmpty (NewStack : stack α) cs
      ∧ popsOnNonEmpty (NewStack : stack α) cs + popsOnEmpty (NewStack : stack α) cs
          = countPop cs
      ∧ (st.Size = (countPush cs : Int) - countPop cs
          ↔ popsOnEmpty (NewStack : stack α) cs = 0))
    ∧ ∀ st0 : stack α, st0.Size = 0 →
        ∃ v st1, st0.Pop = .ok (v, st1) ∧ st1.Size = 0 := by
  obtain ⟨rs, st, hrun, hsize, hpops⟩ := run_size_accounting cs NewStack rfl hcs
  refine ⟨⟨rs, st, hrun, ?_, hpops, ?_⟩, fun st0 h0 => ⟨none, st0, Pop_of_size_zero st0 h0, h0⟩⟩
  · simp only [NewStack, stack.Size] at hsize ⊢
    omega
  · simp only [NewStack, stack.Size] at hsize hpops ⊢
    omega

/-- Witness of C18: pop, push 1, pop, pop, push 2 (`P = 2`, `Q = 3`, two pops on
the empty stack) ends with `Size() == 2 - 1`. -/
theorem C18_size_accounting_witness :
    (∀ c ∈ ([.pop, .push (some 1), .pop, .pop, .push (some 2)] : List (Call Nat)),
        c.isPush = true ∨ c.isPop = true)
    ∧ popsOnNonEmpty (NewStack : stack Nat) [.pop, .push (some 1), .pop, .pop, .push (some 2)]
        = 1
    ∧ popsOnEmpty (NewStack : stack Nat) [.pop, .push (some 1), .pop, .pop, .push (some 2)]
        = 2
    ∧ (∃ rs st,
        run (NewStack : stack Nat) [.pop, .push (some 1), .pop, .pop, .push (some 2)]
          = .ok (rs, st)
        ∧ st.Size
          = (countPush ([.pop, .push (some 1), .pop, .pop, .push (some 2)]
              : List (Call Nat)) : Int)
            - popsOnNonEmpty (NewStack : stack Nat)
                [.pop, .push (some 1), .pop, .pop, .push (some 2)]
        ∧ popsOnNonEmpty (NewStack : stack Nat)
              [.pop, .push (some 1), .pop, .pop, .push (some 2)]
            + popsOnEmpty (NewStack : stack Nat)
              [.pop, .push (some 1), .pop, .pop, .push (some 2)]
            = countPop ([.pop, .push (some 1), .pop, .pop, .push (some 2)]
              : List (Call Nat))
        ∧ (st.Size
            = (countPush ([.pop, .push (some 1), .pop, .pop, .push (some 2)]
                : List (Call Nat)) : Int)
              - countPop ([.pop, .push (some 1), .pop, .pop, .push (some 2)]
                : List (Call Nat))
            ↔ popsOnEmpty (NewStack : stack Nat)
                [.pop, .push (some 1), .pop, .pop, .push (some 2)] = 0)) :=
  ⟨by decide, by decide, by decide,
   (C18_size_accounting [.pop, .push (some 1), .pop, .pop, .push (some 2)] (by decide)).1⟩

/-- C19 (without stored `nil` the sentinel is exact): after every sequence of
calls on `NewStack()` none of which is `Push(nil)`, `Pop()` returns, and returns
`nil` if and only if `Size() == 0` before the call; `Top()` returns, and returns
`nil` if and only if `Size() == 0`. -/
theorem C19_sentinel_exact {α : Type} (cs : List (Call α))
    (hcs : ∀ c ∈ cs, c ≠ Call.push none) :
    ∃ rs st, run (NewStack : stack α) cs = .ok (rs, st)
      ∧ (∃ v st1, st.Pop = .ok (v, st1) ∧ (v = none ↔ st.Size = 0))
      ∧ ∃ v, st.Top = .ok (v, st) ∧ (v = none ↔ st.Size = 0) := by
  have hrun := run_eq_listModel cs (NewStack : stack α) rfl
  have hnil := listModelRun_no_nil cs ([] : List (Value α)) hcs (by simp)
  simp only [NewStack] at hrun
  generalize (listModelRun ([] : List (Value α)) cs).2 = f at hnil hrun
  generalize (listModelRun ([] : List (Value α)) cs).1 = rs at hrun
  refine ⟨rs, _, hrun, ?_, ?_⟩
  · rcases List.eq_nil_or_concat f with hf | ⟨f1, e, hf⟩
    · subst hf
      exact ⟨none, _, rfl, by simp [stack.Size]⟩
    · subst hf
      have he : e ≠ none := fun he => hnil (by simp [he])
      refine ⟨e, _, by simpa using Pop_snoc f1 e, ?_⟩
      simp only [stack.Size, List.concat_eq_append, List.length_append,
        List.length_singleton, Nat.cast_add, Nat.cast_one]
      constructor
      · intro h
        exact absurd h he
      · intro h
        omega
  · rcases List.eq_nil_or_concat f with hf | ⟨f1, e, hf⟩
    · subst hf
      exact ⟨none, rfl, by simp [stack.Size]⟩
    · subst hf
      have he : e ≠ none := fun he => hnil (by simp [he])
      refine ⟨e, by simpa using Top_snoc f1 e, ?_⟩
      simp only [stack.Size, List.concat_eq_append, List.length_append,
        List.length_singleton, Nat.cast_add, Nat.cast_one]
      constructor
      · intro h
        exact absurd h he
      · intro h
        omega

/-- Witness of C19: push 1, push 2, push 3, pop, push 4, pop. -/
theorem C19_sentinel_exact_witness :
    (∀ c ∈ sampleCalls, c ≠ Call.push none)
    ∧ ∃ rs st, run (NewStack : stack Nat) sampleCalls = .ok (rs, st)
      ∧ (∃ v st1, st.Pop = .ok (v, st1) ∧ (v = none ↔ st.Size = 0))
      ∧ ∃ v, st.Top = .ok (v, st) ∧ (v = none ↔ st.Size = 0) :=
  ⟨by decide, C19_sentinel_exact sampleCalls (by decide)⟩

/-- C20 (`Destroy` yields the initial state and is idempotent): for every state,
reachable or not, the state after `Destroy()` has `size == 0` and empty `items`,
is the state `NewStack()` produces, and is left as it is by a second
`Destroy()`. -/
theorem C20_destroy_initial_idempotent {α : Type} (st : stack α) :
    st.Destroy.size = 0
    ∧ st.Destroy.items = []
    ∧ st.Destroy = NewStack
    ∧ st.Destroy.Destroy = st.Destroy :=
  ⟨rfl, rfl, rfl, rfl⟩

end Adt
